import Mathlib

/-
Verification of the external-buffered-stream library.

The development shallowly embeds the library's core:
  - src/error.rs           : the Error enum (payloads elided);
  - src/serde/bincode.rs   : the serialization contract, instantiated at the
    u64 item type with bincode's standard variable-length integer format
    (single byte below 251; marker 251/252/253 followed by 2/4/8
    little-endian bytes);
  - src/buffer/sled.rs     : the persistent FIFO buffer over an embedded
    key-value store, modelled as an association list from key bytes to value
    bytes, with head/tail counters as naturals reduced modulo 2^64 where the
    source uses wrapping u64 arithmetic;
  - src/buffer/queue.rs    : the in-memory mutex-guarded binary max-heap,
    modelled as a multiset (list) together with a poisoned flag standing for
    a PoisonError surfaced by Mutex lock;
  - src/lib.rs             : the buffered stream engine (producer drain flow
    and the poll_next consumer state machine), sequentialized: the doorbell
    channel is a count of queued notifications plus a sender-closed flag,
    and an in-flight shift future resolves synchronously when polled.
-/

namespace EBS

/-- Mirror of the Error enum in src/error.rs. Payloads carried by the Rust
variants (boxed errors, bincode errors, sled errors) are elided: only the
variant identity matters to the claims. -/
inductive Error where
  | Custom : Error
  | EncodeError : Error
  | DecodeError : Error
  | SledError : Error
  | InvalidSledKeyFormat : Error
  | MutexError : Error
deriving DecidableEq, Repr

/-- A byte string: a list of naturals, each intended below 256. -/
abbrev Bytes := List Nat

/-- The u64 modulus. -/
def U64MOD : Nat := 18446744073709551616

/-- Mirror of ExternalBufferSled::key_from_u64 combined with
u64::to_be_bytes: the 8-byte big-endian encoding of a u64 value. -/
def u64_to_be_bytes (v : Nat) : Bytes :=
  [v / 72057594037927936 % 256, v / 281474976710656 % 256,
   v / 1099511627776 % 256, v / 4294967296 % 256,
   v / 16777216 % 256, v / 65536 % 256, v / 256 % 256, v % 256]

/-- Mirror of u64::from_be_bytes: fold the bytes big-endian first. -/
def u64_from_be_bytes (bs : Bytes) : Nat :=
  bs.foldl (fun a b => a * 256 + b) 0

theorem u64_to_be_bytes_length (v : Nat) : (u64_to_be_bytes v).length = 8 := rfl

theorem u64_from_be_to_be (v : Nat) (h : v < U64MOD) :
    u64_from_be_bytes (u64_to_be_bytes v) = v := by
  simp only [u64_to_be_bytes, u64_from_be_bytes, List.foldl, U64MOD] at *
  omega

theorem u64_to_be_bytes_inj {v w : Nat} (hv : v < U64MOD) (hw : w < U64MOD)
    (h : u64_to_be_bytes v = u64_to_be_bytes w) : v = w := by
  have := congrArg u64_from_be_bytes h
  rwa [u64_from_be_to_be v hv, u64_from_be_to_be w hw] at this

theorem u64_be_from_be (bs : Bytes) (hlen : bs.length = 8)
    (hb : ∀ y ∈ bs, y < 256) :
    u64_to_be_bytes (u64_from_be_bytes bs) = bs := by
  match bs, hlen with
  | [b0, b1, b2, b3, b4, b5, b6, b7], _ =>
    simp only [List.mem_cons, List.not_mem_nil, or_false, forall_eq_or_imp,
      forall_eq] at hb
    obtain ⟨h0, h1, h2, h3, h4, h5, h6, h7⟩ := hb
    simp only [u64_to_be_bytes, u64_from_be_bytes, List.foldl]
    refine List.ext_getElem (by simp) ?_
    intro i hi h2
    simp only [List.length_cons, List.length_nil] at hi
    interval_cases i <;> simp <;> omega

theorem u64_from_be_bytes_lt (bs : Bytes) (hlen : bs.length = 8)
    (hb : ∀ y ∈ bs, y < 256) : u64_from_be_bytes bs < U64MOD := by
  match bs, hlen with
  | [b0, b1, b2, b3, b4, b5, b6, b7], _ =>
    simp only [List.mem_cons, List.not_mem_nil, or_false, forall_eq_or_imp,
      forall_eq] at hb
    simp only [u64_from_be_bytes, List.foldl, U64MOD]
    omega

/-! The serialization contract of src/serde.rs, instantiated as in
src/serde/bincode.rs. The concrete byte codec is the external bincode crate
(standard configuration), outside this repository; its variable-length
unsigned-integer format is modelled here for the u64 item type.
Modelled from the spec: the codec behind the serialization contract
(encode item to bytes, decode bytes to item, round-trip exact), following
bincode's documented standard varint format for unsigned integers. -/

/-- Modelled from the spec: bincode standard-config encoding of a u64
(into_external_buffer). Values below 251 occupy a single byte; otherwise a
marker byte 251 (u16), 252 (u32) or 253 (u64) is followed by the value in
little-endian order. -/
def encodeU64 (x : Nat) : Bytes :=
  if x < 251 then [x]
  else if x < 65536 then [251, x % 256, x / 256 % 256]
  else if x < 4294967296 then
    [252, x % 256, x / 256 % 256, x / 65536 % 256, x / 16777216 % 256]
  else
    [253, x % 256, x / 256 % 256, x / 65536 % 256, x / 16777216 % 256,
     x / 4294967296 % 256, x / 1099511627776 % 256,
     x / 281474976710656 % 256, x / 72057594037927936 % 256]

/-- Modelled from the spec: bincode standard-config decoding of a u64
(from_external_buffer). Reads the first byte; a value below 251 is the
result, markers 251/252/253 require 2/4/8 further little-endian bytes, and
anything else (the u128 marker 254, or the reserved byte 255) is a decode
error, as is running out of bytes. Trailing bytes are ignored, matching
decode_from_slice which returns the decoded value and the length read. -/
def decodeU64 : Bytes → Except Error Nat
  | [] => .error .DecodeError
  | b :: rest =>
    if b < 251 then .ok b
    else if b = 251 then
      match rest with
      | b0 :: b1 :: _ => .ok (b0 + 256 * b1)
      | _ => .error .DecodeError
    else if b = 252 then
      match rest with
      | b0 :: b1 :: b2 :: b3 :: _ =>
          .ok (b0 + 256 * (b1 + 256 * (b2 + 256 * b3)))
      | _ => .error .DecodeError
    else if b = 253 then
      match rest with
      | b0 :: b1 :: b2 :: b3 :: b4 :: b5 :: b6 :: b7 :: _ =>
          .ok (b0 + 256 * (b1 + 256 * (b2 + 256 * (b3 + 256 *
            (b4 + 256 * (b5 + 256 * (b6 + 256 * b7)))))))
      | _ => .error .DecodeError
    else .error .DecodeError

theorem decode_encode_u64 (x : Nat) (h : x < U64MOD) :
    decodeU64 (encodeU64 x) = .ok x := by
  unfold encodeU64 decodeU64
  by_cases h1 : x < 251
  · simp [h1]
  · by_cases h2 : x < 65536
    · simp only [h1, if_false, h2, if_true]
      simp only [show ¬(251 < 251) from by omega, if_false, if_true]
      congr 1
      omega
    · by_cases h3 : x < 4294967296
      · simp only [h1, if_false, h2, if_false, h3, if_true]
        simp only [show ¬(252 < 251) from by omega, show ¬(252 = 251) from by
          omega, if_false, if_true]
        congr 1
        omega
      · simp only [h1, if_false, h2, if_false, h3, if_false]
        simp only [show ¬(253 < 251) from by omega, show ¬(253 = 251) from by
          omega, show ¬(253 = 252) from by omega, if_false, if_true]
        simp only [U64MOD] at h
        congr 1
        omega

theorem decode_truncated_u64 (x : Nat) (k : Nat)
    (hk : k < (encodeU64 x).length) :
    decodeU64 ((encodeU64 x).take k) = .error .DecodeError := by
  unfold encodeU64 at *
  by_cases h1 : x < 251
  · simp only [h1, if_true, List.length_cons, List.length_nil] at hk ⊢
    interval_cases k <;> rfl
  · by_cases h2 : x < 65536
    · simp only [h1, if_false, h2, if_true, List.length_cons,
        List.length_nil] at hk ⊢
      interval_cases k <;> rfl
    · by_cases h3 : x < 4294967296
      · simp only [h1, if_false, h2, if_false, h3, if_true, List.length_cons,
          List.length_nil] at hk ⊢
        interval_cases k <;> rfl
      · simp only [h1, if_false, h2, if_false, h3, if_false, List.length_cons,
          List.length_nil] at hk ⊢
        interval_cases k <;> rfl

/-! The persistent FIFO buffer of src/buffer/sled.rs. The embedded sled
store is modelled as an association list from key bytes to value bytes with
unique keys: insert prepends after erasing the key, remove erases it and
returns the previous value, and iteration walks the entries. -/

/-- Lookup of a key in the store, first match wins (keys are unique). -/
def storeLookup : List (Bytes × Bytes) → Bytes → Option Bytes
  | [], _ => none
  | e :: rest, key => if e.1 = key then some e.2 else storeLookup rest key

/-- Drop every entry whose key equals the given key. -/
def storeErase (db : List (Bytes × Bytes)) (key : Bytes) :
    List (Bytes × Bytes) :=
  db.filter (fun e => decide (e.1 ≠ key))

/-- Mirror of sled Db insert (overwrite the key with the new value). -/
def storeInsert (db : List (Bytes × Bytes)) (key : Bytes) (v : Bytes) :
    List (Bytes × Bytes) :=
  (key, v) :: storeErase db key

/-- Mirror of the ExternalBufferSled struct: a sled store handle plus the
head and tail AtomicU64 counters. -/
structure SledBuffer where
  db : List (Bytes × Bytes)
  head : Nat
  tail : Nat
deriving DecidableEq, Repr

/-- Mirror of ExternalBufferSled push at the byte level: read the tail
counter as the fresh key (fetch_add returns the old value and stores the
successor, wrapping as u64), then insert the serialized bytes at the
big-endian key. -/
def pushBytes (b : SledBuffer) (data : Bytes) : SledBuffer :=
  { db := storeInsert b.db (u64_to_be_bytes b.tail) data
    head := b.head
    tail := (b.tail + 1) % U64MOD }

/-- Mirror of the loop in ExternalBufferSled shift, fuelled. Each pass
reads head and tail, returns none when head is at or past tail, otherwise
removes the entry at key head: if a value was present it is returned with
head advanced by one, and if not (a gap) head is still advanced by one and
the loop retries. The fuel only bounds the recursion; shiftLoop_fuel below
shows tail - head passes always suffice. -/
def shiftLoop : Nat → SledBuffer → SledBuffer × Option Bytes
  | 0, b => (b, none)
  | fuel + 1, b =>
    if b.tail ≤ b.head then (b, none)
    else
      match storeLookup b.db (u64_to_be_bytes b.head) with
      | some data =>
          ({ db := storeErase b.db (u64_to_be_bytes b.head)
             head := (b.head + 1) % U64MOD
             tail := b.tail }, some data)
      | none =>
          shiftLoop fuel
            { db := storeErase b.db (u64_to_be_bytes b.head)
              head := (b.head + 1) % U64MOD
              tail := b.tail }

/-- ExternalBufferSled shift at the byte level, run with fuel tail - head,
which shiftLoop_fuel proves sufficient. -/
def shiftBytes (b : SledBuffer) : SledBuffer × Option Bytes :=
  shiftLoop (b.tail - b.head) b

/-- ExternalBufferSled push at the item level for the u64 instantiation:
serialize the item, then pushBytes. Encoding a u64 cannot fail. -/
def pushU64 (b : SledBuffer) (x : Nat) : SledBuffer :=
  pushBytes b (encodeU64 x)

/-- ExternalBufferSled shift at the item level for the u64 instantiation.
The loop removes bytes and advances head; only then are the bytes decoded,
so a decode failure propagates with head already advanced (the state
returned alongside the error is the advanced one), mirroring the order of
head_counter.fetch_add and T::from_external_buffer in the source. -/
def shiftU64 (b : SledBuffer) : SledBuffer × Except Error (Option Nat) :=
  match shiftBytes b with
  | (b2, none) => (b2, .ok none)
  | (b2, some data) =>
      match decodeU64 data with
      | .ok x => (b2, .ok (some x))
      | .error e => (b2, .error e)

/-- One fold step of initialize_counters: keys of length 8 update the
running minimum, maximum and the has_keys flag; any other key is skipped by
the length test. The map_err to InvalidSledKeyFormat in the source guards a
conversion of an 8-byte slice into an 8-byte array, which cannot fail. -/
def initStep (acc : Nat × Nat × Bool) (e : Bytes × Bytes) : Nat × Nat × Bool :=
  if e.1.length = 8 then
    (min acc.1 (u64_from_be_bytes e.1),
     max acc.2.1 (u64_from_be_bytes e.1), true)
  else acc

/-- Mirror of ExternalBufferSled::initialize_counters: iterate the store,
starting from min = u64::MAX, max = 0, has_keys = false; with keys found
the result is (min, max + 1) in wrapping u64 arithmetic, otherwise (0, 0).
Store iteration faults (sled I/O) are not modelled. -/
def initialize_counters (db : List (Bytes × Bytes)) :
    Except Error (Nat × Nat) :=
  let r := db.foldl initStep (U64MOD - 1, 0, false)
  if r.2.2 then .ok (r.1, (r.2.1 + 1) % U64MOD) else .ok (0, 0)

/-- Mirror of ExternalBufferSled::new on an already-opened store: run the
recovery scan and seed the counters. Open faults (sled I/O) are not
modelled. -/
def sledNew (db : List (Bytes × Bytes)) : Except Error SledBuffer :=
  (initialize_counters db).map fun p => ⟨db, p.1, p.2⟩

/-! Basic facts about the store model. -/

theorem storeLookup_eq_none_iff (db : List (Bytes × Bytes)) (k : Bytes) :
    storeLookup db k = none ↔ ∀ e ∈ db, e.1 ≠ k := by
  induction db with
  | nil => simp [storeLookup]
  | cons e rest ih =>
    by_cases h : e.1 = k
    · simp [storeLookup, h]
    · simp [storeLookup, h, ih]

theorem storeLookup_mem {db : List (Bytes × Bytes)} {k v : Bytes}
    (h : storeLookup db k = some v) : (k, v) ∈ db := by
  induction db with
  | nil => simp [storeLookup] at h
  | cons e rest ih =>
    by_cases he : e.1 = k
    · simp only [storeLookup, he, if_true, Option.some.injEq] at h
      have : (k, v) = e := by
        obtain ⟨e1, e2⟩ := e
        simp at he h
        simp [he, h]
      rw [this]
      exact List.mem_cons_self _ _
    · simp only [storeLookup, he, if_false] at h
      exact List.mem_cons_of_mem _ (ih h)

theorem mem_storeErase {db : List (Bytes × Bytes)} {k : Bytes}
    {e : Bytes × Bytes} (h : e ∈ storeErase db k) : e ∈ db ∧ e.1 ≠ k := by
  have := List.mem_filter.mp h
  refine ⟨this.1, ?_⟩
  simpa using this.2

theorem storeLookup_erase_ne (db : List (Bytes × Bytes)) {k k' : Bytes}
    (h : k' ≠ k) : storeLookup (storeErase db k) k' = storeLookup db k' := by
  induction db with
  | nil => rfl
  | cons e rest ih =>
    simp only [storeErase, List.filter_cons] at ih ⊢
    by_cases he : e.1 = k
    · have hne' : ¬ e.1 = k' := fun hc => h (by rw [← hc, he])
      have hcond : decide (e.1 ≠ k) = false := by simp [he]
      rw [hcond, if_neg (by simp : ¬ (false = true)), storeLookup, if_neg hne']
      exact ih
    · have hcond : decide (e.1 ≠ k) = true := by simp [he]
      rw [hcond, if_pos rfl, storeLookup, storeLookup]
      by_cases he' : e.1 = k'
      · rw [if_pos he', if_pos he']
      · rw [if_neg he', if_neg he']
        exact ih

theorem storeLookup_erase_self (db : List (Bytes × Bytes)) (k : Bytes) :
    storeLookup (storeErase db k) k = none := by
  rw [storeLookup_eq_none_iff]
  intro e he
  exact (mem_storeErase he).2

theorem storeLookup_erase_none {db : List (Bytes × Bytes)} {k k' : Bytes}
    (h : storeLookup db k' = none) :
    storeLookup (storeErase db k) k' = none := by
  rw [storeLookup_eq_none_iff] at h ⊢
  intro e he
  exact h e (mem_storeErase he).1

/-! The shift loop: tail - head passes of fuel always suffice, so shiftBytes
captures every run of the source's unbounded loop. -/

theorem shiftLoop_fuel (fuel : Nat) : ∀ b : SledBuffer, b.tail < U64MOD →
    b.tail - b.head ≤ fuel → shiftLoop fuel b = shiftBytes b := by
  induction fuel with
  | zero =>
    intro b _ hle
    have : b.tail ≤ b.head := by omega
    simp [shiftLoop, shiftBytes, Nat.sub_eq_zero_of_le this, this]
  | succ f ih =>
    intro b hlt hle
    by_cases hempty : b.tail ≤ b.head
    · simp [shiftLoop, shiftBytes, Nat.sub_eq_zero_of_le hempty, hempty]
    · have hdlt : b.head < b.tail := by omega
      obtain ⟨d, hd⟩ : ∃ d, b.tail - b.head = d + 1 := ⟨b.tail - b.head - 1, by omega⟩
      have hmod : (b.head + 1) % U64MOD = b.head + 1 :=
        Nat.mod_eq_of_lt (by omega)
      rw [shiftBytes, hd]
      simp only [shiftLoop, if_neg hempty]
      cases hrm : storeLookup b.db (u64_to_be_bytes b.head) with
      | some data => rfl
      | none =>
        have hrec : shiftLoop f
            { db := storeErase b.db (u64_to_be_bytes b.head)
              head := (b.head + 1) % U64MOD, tail := b.tail } =
            shiftLoop d
            { db := storeErase b.db (u64_to_be_bytes b.head)
              head := (b.head + 1) % U64MOD, tail := b.tail } := by
          rw [ih _ (by simpa) (by simp [hmod]; omega)]
          rw [shiftBytes]
          simp [hmod]
          congr 1
          omega
        exact hrec

/-! A simulation relation: the sled buffer holds exactly the byte values L
at consecutive keys starting at h. -/

/-- The buffer holds the byte values L at keys h, h+1, ..., h+|L|-1: the
counters delimit the window, every key in the window is live with the right
value, and every store entry lies in the window. -/
def Represents (b : SledBuffer) (h : Nat) (L : List Bytes) : Prop :=
  b.head = h ∧ b.tail = h + L.length ∧ h + L.length < U64MOD ∧
  (∀ i, i < L.length → storeLookup b.db (u64_to_be_bytes (h + i)) = L.get? i) ∧
  (∀ e ∈ b.db, ∃ i, i < L.length ∧ e.1 = u64_to_be_bytes (h + i))

theorem Represents_nil_fresh : Represents ⟨[], 0, 0⟩ 0 [] := by
  refine ⟨rfl, rfl, by simp [U64MOD], ?_, ?_⟩
  · intro i hi
    simp at hi
  · intro e he
    simp at he

theorem Represents_push {b : SledBuffer} {h : Nat} {L : List Bytes}
    (hr : Represents b h L) (v : Bytes) (hlt : h + L.length + 1 < U64MOD) :
    Represents (pushBytes b v) h (L ++ [v]) := by
  obtain ⟨hh, ht, hb, hlook, hmem⟩ := hr
  have htail : (pushBytes b v).tail = h + L.length + 1 := by
    show (b.tail + 1) % U64MOD = h + L.length + 1
    rw [ht]
    exact Nat.mod_eq_of_lt hlt
  have hdb : (pushBytes b v).db =
      (u64_to_be_bytes (h + L.length), v)
        :: storeErase b.db (u64_to_be_bytes (h + L.length)) := by
    show storeInsert b.db (u64_to_be_bytes b.tail) v = _
    rw [ht, storeInsert]
  refine ⟨hh, ?_, ?_, ?_, ?_⟩
  · rw [htail]
    simp only [List.length_append, List.length_cons, List.length_nil]
    omega
  · simpa using hlt
  · intro i hi
    simp only [List.length_append, List.length_cons, List.length_nil] at hi
    rw [hdb]
    by_cases hie : i = L.length
    · subst hie
      rw [storeLookup, if_pos rfl, List.get?_concat_length]
    · have hilt : i < L.length := by omega
      have hne : u64_to_be_bytes (h + i) ≠ u64_to_be_bytes (h + L.length) :=
        fun hc => by
          have := u64_to_be_bytes_inj (by omega) (by omega) hc
          omega
      rw [storeLookup, if_neg (fun hc => hne hc.symm),
        storeLookup_erase_ne _ hne, hlook i hilt, List.get?_append hilt]
  · intro e he
    rw [hdb] at he
    rcases List.mem_cons.mp he with he | he
    · refine ⟨L.length, ?_, by rw [he]⟩
      simp only [List.length_append, List.length_cons, List.length_nil]
      omega
    · obtain ⟨i, hi, hkeq⟩ := hmem e (mem_storeErase he).1
      refine ⟨i, ?_, hkeq⟩
      simp only [List.length_append, List.length_cons, List.length_nil]
      omega

theorem Represents_shift_cons {b : SledBuffer} {h : Nat} {v : Bytes}
    {L : List Bytes} (hr : Represents b h (v :: L)) :
    shiftBytes b =
      (⟨storeErase b.db (u64_to_be_bytes h), h + 1, b.tail⟩, some v) ∧
    Represents ⟨storeErase b.db (u64_to_be_bytes h), h + 1, b.tail⟩ (h + 1) L := by
  obtain ⟨hh, ht, hb, hlook, hmem⟩ := hr
  simp only [List.length_cons] at ht hb
  have hv : storeLookup b.db (u64_to_be_bytes h) = some v := by
    have := hlook 0 (by simp)
    simpa using this
  constructor
  · have hd : b.tail - b.head = L.length + 1 := by omega
    rw [shiftBytes, hd]
    simp only [shiftLoop]
    rw [if_neg (by omega : ¬ b.tail ≤ b.head), hh, hv]
    rw [show (h + 1) % U64MOD = h + 1 from Nat.mod_eq_of_lt (by omega)]
  · refine ⟨rfl, by show b.tail = _; omega, by show h + 1 + L.length < U64MOD; omega, ?_, ?_⟩
    · intro i hi
      have hne : u64_to_be_bytes (h + 1 + i) ≠ u64_to_be_bytes h :=
        fun hc => by
          have := u64_to_be_bytes_inj (by omega) (by omega) hc
          omega
      show storeLookup (storeErase b.db (u64_to_be_bytes h)) _ = _
      rw [storeLookup_erase_ne _ hne]
      have hl2 := hlook (1 + i) (by simp; omega)
      rw [show h + (1 + i) = h + 1 + i by omega] at hl2
      rw [hl2, show (1 + i) = i + 1 by omega]
      simp
    · intro e he
      obtain ⟨hmem2, hne⟩ := mem_storeErase he
      obtain ⟨i, hi, hkeq⟩ := hmem e hmem2
      have hipos : i ≠ 0 := fun hc => by
        subst hc
        simp only [Nat.add_zero] at hkeq
        exact hne hkeq
      obtain ⟨j, hj⟩ : ∃ j, i = j + 1 := ⟨i - 1, by omega⟩
      refine ⟨j, by simp only [List.length_cons] at hi; omega, ?_⟩
      rw [hkeq, hj]
      congr 1
      omega

theorem Represents_shift_nil {b : SledBuffer} {h : Nat}
    (hr : Represents b h []) : shiftBytes b = (b, none) := by
  obtain ⟨hh, ht, _, _, _⟩ := hr
  simp only [List.length_nil, Nat.add_zero] at ht
  rw [shiftBytes, ht, hh, Nat.sub_self]
  rfl

theorem shiftU64_cons {b : SledBuffer} {h x : Nat} {R : List Nat}
    (hr : Represents b h ((x :: R).map encodeU64)) (hx : x < U64MOD) :
    shiftU64 b =
      (⟨storeErase b.db (u64_to_be_bytes h), h + 1, b.tail⟩, .ok (some x)) ∧
    Represents ⟨storeErase b.db (u64_to_be_bytes h), h + 1, b.tail⟩ (h + 1)
      (R.map encodeU64) := by
  simp only [List.map_cons] at hr
  obtain ⟨hsb, hrep⟩ := Represents_shift_cons hr
  refine ⟨?_, hrep⟩
  rw [shiftU64, hsb]
  simp only [decode_encode_u64 x hx]

theorem shiftU64_nil {b : SledBuffer} {h : Nat}
    (hr : Represents b h []) : shiftU64 b = (b, .ok none) := by
  rw [shiftU64, Represents_shift_nil hr]

/-! Sequential interleavings of pushes and shifts against the persistent
buffer, at the u64 item type. -/

/-- An operation against the buffer: a push of an item, or a shift. -/
inductive Op where
  | push : Nat → Op
  | shift : Op
deriving DecidableEq, Repr

/-- Run the operations left to right, collecting every shift's result. -/
def runOps : List Op → SledBuffer → SledBuffer × List (Except Error (Option Nat))
  | [], b => (b, [])
  | Op.push x :: rest, b => runOps rest (pushU64 b x)
  | Op.shift :: rest, b =>
      let p := shiftU64 b
      let q := runOps rest p.1
      (q.1, p.2 :: q.2)

/-- The items pushed by an operation sequence, in order. -/
def pushedItems (ops : List Op) : List Nat :=
  ops.filterMap fun o => match o with | Op.push x => some x | Op.shift => none

/-- The items delivered by the shifts that returned one, in order. -/
def shiftSomes (rs : List (Except Error (Option Nat))) : List Nat :=
  rs.filterMap fun r =>
    match r with | Except.ok (some x) => some x | _ => none

theorem shiftSomes_append (r1 r2 : List (Except Error (Option Nat))) :
    shiftSomes (r1 ++ r2) = shiftSomes r1 ++ shiftSomes r2 :=
  List.filterMap_append _ _ _

theorem pushedItems_nil : pushedItems [] = [] := rfl

theorem pushedItems_push_cons (x : Nat) (rest : List Op) :
    pushedItems (Op.push x :: rest) = x :: pushedItems rest := by
  simp [pushedItems, List.filterMap_cons]

theorem pushedItems_shift_cons (rest : List Op) :
    pushedItems (Op.shift :: rest) = pushedItems rest := by
  simp [pushedItems, List.filterMap_cons]

theorem shiftSomes_nil : shiftSomes [] = [] := rfl

theorem shiftSomes_cons_some (x : Nat) (rs : List (Except Error (Option Nat))) :
    shiftSomes (Except.ok (some x) :: rs) = x :: shiftSomes rs := by
  simp [shiftSomes, List.filterMap_cons]

theorem shiftSomes_cons_none (rs : List (Except Error (Option Nat))) :
    shiftSomes (Except.ok none :: rs) = shiftSomes rs := by
  simp [shiftSomes, List.filterMap_cons]

theorem runOps_append (l1 l2 : List Op) : ∀ b : SledBuffer,
    runOps (l1 ++ l2) b =
      ((runOps l2 (runOps l1 b).1).1,
       (runOps l1 b).2 ++ (runOps l2 (runOps l1 b).1).2) := by
  induction l1 with
  | nil => intro b; simp [runOps]
  | cons o rest ih =>
    intro b
    cases o with
    | push x => simpa [runOps] using ih (pushU64 b x)
    | shift => simp [runOps, ih (shiftU64 b).1]

/-- Running any interleaving from a represented state: the delivered items
followed by what remains equal the initial contents followed by the pushed
items, every shift result is a non-error, and the final state is again
represented. -/
theorem runOps_spec : ∀ (ops : List Op) (b : SledBuffer) (h : Nat)
    (R : List Nat),
    Represents b h (R.map encodeU64) →
    (∀ x ∈ R, x < U64MOD) →
    (∀ x ∈ pushedItems ops, x < U64MOD) →
    h + R.length + (pushedItems ops).length < U64MOD →
    ∃ h2 R2,
      Represents (runOps ops b).1 h2 (R2.map encodeU64) ∧
      (∀ x ∈ R2, x < U64MOD) ∧
      shiftSomes (runOps ops b).2 ++ R2 = R ++ pushedItems ops ∧
      (∀ r ∈ (runOps ops b).2, ∃ o, r = Except.ok o) := by
  intro ops
  induction ops with
  | nil =>
    intro b h R hrep hR _ _
    exact ⟨h, R, hrep, hR,
      by rw [pushedItems_nil]; simp [runOps, shiftSomes_nil],
      by simp [runOps]⟩
  | cons o rest ih =>
    intro b h R hrep hR hP hbound
    cases o with
    | push x =>
      rw [pushedItems_push_cons] at hP hbound
      simp only [List.length_cons] at hbound
      have hx : x < U64MOD := hP x (by simp)
      have hP2 : ∀ y ∈ pushedItems rest, y < U64MOD := fun y hy =>
        hP y (List.mem_cons_of_mem _ hy)
      have hrep2 : Represents (pushU64 b x) h ((R ++ [x]).map encodeU64) := by
        rw [List.map_append]
        exact Represents_push hrep (encodeU64 x)
          (by simp only [List.length_map]; omega)
      have hR2 : ∀ y ∈ R ++ [x], y < U64MOD := fun y hy => by
        rcases List.mem_append.mp hy with hy | hy
        · exact hR y hy
        · simp at hy; rw [hy]; exact hx
      have hbound2 : h + (R ++ [x]).length + (pushedItems rest).length
          < U64MOD := by
        simp only [List.length_append, List.length_cons, List.length_nil]
        omega
      obtain ⟨h2, R2, ha, hb2, hc, hd⟩ :=
        ih (pushU64 b x) h (R ++ [x]) hrep2 hR2 hP2 hbound2
      refine ⟨h2, R2, ha, hb2, ?_, hd⟩
      show shiftSomes (runOps rest (pushU64 b x)).2 ++ R2
        = R ++ pushedItems (Op.push x :: rest)
      rw [hc, pushedItems_push_cons, List.append_assoc, List.singleton_append]
    | shift =>
      rw [pushedItems_shift_cons] at hP hbound
      cases R with
      | nil =>
        have hshift := shiftU64_nil (by simpa using hrep)
        have hrep2 : Represents (shiftU64 b).1 h
            (([] : List Nat).map encodeU64) := by
          rw [hshift]
          simpa using hrep
        obtain ⟨h2, R2, ha, hb2, hc, hd⟩ := ih (shiftU64 b).1 h [] hrep2
          (by simp) hP (by simpa using hbound)
        refine ⟨h2, R2, ha, hb2, ?_, ?_⟩
        · simp only [runOps]
          rw [hshift] at hc ⊢
          dsimp only at hc ⊢
          rw [pushedItems_shift_cons, shiftSomes_cons_none, hc]
        · intro r hr
          simp only [runOps] at hr
          rw [hshift] at hr
          dsimp only at hr
          rcases List.mem_cons.mp hr with hr | hr
          · rw [hr]
            exact ⟨none, rfl⟩
          · rw [hshift] at hd
            exact hd r hr
      | cons x R' =>
        have hx : x < U64MOD := hR x (by simp)
        obtain ⟨hshift, hrep2⟩ := shiftU64_cons hrep hx
        have hbound2 : (h + 1) + R'.length + (pushedItems rest).length
            < U64MOD := by
          simp only [List.length_cons] at hbound
          omega
        obtain ⟨h2, R2, ha, hb2, hc, hd⟩ := ih (shiftU64 b).1 (h + 1) R'
          (by rw [hshift]; exact hrep2)
          (fun y hy => hR y (List.mem_cons_of_mem _ hy)) hP hbound2
        refine ⟨h2, R2, ha, hb2, ?_, ?_⟩
        · simp only [runOps]
          rw [hshift] at hc ⊢
          dsimp only at hc ⊢
          rw [pushedItems_shift_cons, shiftSomes_cons_some, List.cons_append,
            hc, List.cons_append]
        · intro r hr
          simp only [runOps] at hr
          rw [hshift] at hr
          dsimp only at hr
          rcases List.mem_cons.mp hr with hr | hr
          · rw [hr]
            exact ⟨some x, rfl⟩
          · rw [hshift] at hd
            exact hd r hr

theorem runOps_shift_empty : ∀ (e : Nat) (b : SledBuffer) (h : Nat),
    Represents b h ([] : List Bytes) →
    runOps (List.replicate e Op.shift) b
      = (b, List.replicate e (Except.ok none)) := by
  intro e
  induction e with
  | zero => intro b h _; rfl
  | succ e ih =>
    intro b h hrep
    rw [List.replicate_succ]
    simp only [runOps]
    rw [shiftU64_nil hrep]
    dsimp only
    rw [ih b h hrep, List.replicate_succ]

theorem shiftSomes_replicate_none (e : Nat) :
    shiftSomes (List.replicate e (Except.ok none)) = [] := by
  induction e with
  | zero => rfl
  | succ e ih => rw [List.replicate_succ, shiftSomes_cons_none, ih]

theorem runOps_drain : ∀ (R : List Nat) (e : Nat) (b : SledBuffer) (h : Nat),
    Represents b h (R.map encodeU64) → (∀ x ∈ R, x < U64MOD) →
    shiftSomes (runOps (List.replicate (R.length + e) Op.shift) b).2 = R ∧
    (∀ r ∈ (runOps (List.replicate (R.length + e) Op.shift) b).2,
      ∃ o, r = Except.ok o) := by
  intro R
  induction R with
  | nil =>
    intro e b h hrep _
    rw [List.length_nil, Nat.zero_add,
      runOps_shift_empty e b h (by simpa using hrep)]
    refine ⟨shiftSomes_replicate_none e, ?_⟩
    intro r hr
    exact ⟨none, List.eq_of_mem_replicate hr⟩
  | cons x R' ih =>
    intro e b h hrep hR
    have hx : x < U64MOD := hR x (by simp)
    obtain ⟨hshift, hrep2⟩ := shiftU64_cons hrep hx
    have hlen : (x :: R').length + e = (R'.length + e) + 1 := by
      simp only [List.length_cons]
      omega
    rw [hlen, List.replicate_succ]
    simp only [runOps]
    rw [hshift]
    dsimp only
    obtain ⟨h1, h2⟩ := ih e _ (h + 1) hrep2
      (fun y hy => hR y (List.mem_cons_of_mem _ hy))
    refine ⟨?_, ?_⟩
    · rw [shiftSomes_cons_some, h1]
    · intro r hr
      rcases List.mem_cons.mp hr with hr | hr
      · rw [hr]
        exact ⟨some x, rfl⟩
      · exact h2 r hr

/-- C2: for the persistent FIFO backend starting from an empty store, any
sequential interleaving of pushes and shifts with no faults delivers, once
enough trailing shifts are appended to drain the buffer, exactly the pushed
items, each once, in push order; and no shift of the run returns an error
(an empty shift is Ok none, not an error). The hypotheses confine the run
to the regime where the u64 tail counter cannot wrap. -/
theorem c2_fifo_no_dup_no_loss (ops : List Op)
    (hv : ∀ x ∈ pushedItems ops, x < U64MOD)
    (hn : (pushedItems ops).length < U64MOD) :
    shiftSomes (runOps
        (ops ++ List.replicate (pushedItems ops).length Op.shift)
        ⟨[], 0, 0⟩).2
      = pushedItems ops ∧
    ∀ r ∈ (runOps (ops ++ List.replicate (pushedItems ops).length Op.shift)
        ⟨[], 0, 0⟩).2,
      ∃ o, r = Except.ok o := by
  obtain ⟨h2, R2, ha, hb2, hc, hd⟩ := runOps_spec ops ⟨[], 0, 0⟩ 0 []
    Represents_nil_fresh (by simp) hv (by simpa using hn)
  rw [List.nil_append] at hc
  have hlenR2 : R2.length ≤ (pushedItems ops).length := by
    have hleq := congrArg List.length hc
    simp only [List.length_append] at hleq
    omega
  obtain ⟨e, he⟩ : ∃ e, (pushedItems ops).length = R2.length + e :=
    ⟨(pushedItems ops).length - R2.length, by omega⟩
  obtain ⟨hd1, hd2⟩ := runOps_drain R2 e (runOps ops ⟨[], 0, 0⟩).1 h2 ha hb2
  rw [runOps_append]
  dsimp only
  constructor
  · rw [shiftSomes_append, he, hd1, hc]
  · intro r hr
    rcases List.mem_append.mp hr with hr | hr
    · exact hd r hr
    · rw [he] at hr
      exact hd2 r hr

/-- Witness for c2_fifo_no_dup_no_loss at a concrete interleaving: push 1,
shift, push 300, push 2, shift, shift, then drain; the delivered items are
exactly 1, 300, 2 in push order. -/
theorem c2_fifo_no_dup_no_loss_witness :
    (∀ x ∈ pushedItems [Op.push 1, Op.shift, Op.push 300, Op.push 2,
        Op.shift, Op.shift], x < U64MOD) ∧
    (pushedItems [Op.push 1, Op.shift, Op.push 300, Op.push 2, Op.shift,
        Op.shift]).length < U64MOD ∧
    (shiftSomes (runOps
        ([Op.push 1, Op.shift, Op.push 300, Op.push 2, Op.shift, Op.shift]
          ++ List.replicate (pushedItems [Op.push 1, Op.shift, Op.push 300,
              Op.push 2, Op.shift, Op.shift]).length Op.shift)
        ⟨[], 0, 0⟩).2
      = pushedItems [Op.push 1, Op.shift, Op.push 300, Op.push 2, Op.shift,
          Op.shift] ∧
    ∀ r ∈ (runOps ([Op.push 1, Op.shift, Op.push 300, Op.push 2, Op.shift,
          Op.shift]
        ++ List.replicate (pushedItems [Op.push 1, Op.shift, Op.push 300,
            Op.push 2, Op.shift, Op.shift]).length Op.shift)
        ⟨[], 0, 0⟩).2,
      ∃ o, r = Except.ok o) :=
  ⟨by decide, by decide,
   c2_fifo_no_dup_no_loss [Op.push 1, Op.shift, Op.push 300, Op.push 2,
     Op.shift, Op.shift] (by decide) (by decide)⟩

/-! Characterizing the recovery scan of initialize_counters. -/

/-- The u64 values of the 8-byte keys of the store, in iteration order. -/
def keyVals (db : List (Bytes × Bytes)) : List Nat :=
  db.filterMap fun e =>
    if e.1.length = 8 then some (u64_from_be_bytes e.1) else none

theorem keyVals_cons_eight {e : Bytes × Bytes} (db : List (Bytes × Bytes))
    (h8 : e.1.length = 8) :
    keyVals (e :: db) = u64_from_be_bytes e.1 :: keyVals db := by
  simp [keyVals, List.filterMap_cons, h8]

theorem keyVals_cons_other {e : Bytes × Bytes} (db : List (Bytes × Bytes))
    (h8 : ¬ e.1.length = 8) : keyVals (e :: db) = keyVals db := by
  simp [keyVals, List.filterMap_cons, h8]

theorem mem_keyVals {db : List (Bytes × Bytes)} {x : Nat}
    (h : x ∈ keyVals db) :
    ∃ e ∈ db, e.1.length = 8 ∧ u64_from_be_bytes e.1 = x := by
  obtain ⟨e, he, hx⟩ := List.mem_filterMap.mp h
  by_cases h8 : e.1.length = 8
  · rw [if_pos h8] at hx
    exact ⟨e, he, h8, by injection hx⟩
  · rw [if_neg h8] at hx
    cases hx

theorem keyVals_mem {db : List (Bytes × Bytes)} {e : Bytes × Bytes}
    (he : e ∈ db) (h8 : e.1.length = 8) : u64_from_be_bytes e.1 ∈ keyVals db :=
  List.mem_filterMap.mpr ⟨e, he, by rw [if_pos h8]⟩

theorem initFold_eq : ∀ (db : List (Bytes × Bytes)) (m M : Nat) (hs : Bool),
    db.foldl initStep (m, M, hs)
      = ((keyVals db).foldl min m, (keyVals db).foldl max M,
         hs || !(keyVals db).isEmpty) := by
  intro db
  induction db with
  | nil => intro m M hs; simp [keyVals]
  | cons e rest ih =>
    intro m M hs
    by_cases h8 : e.1.length = 8
    · rw [List.foldl_cons, keyVals_cons_eight rest h8]
      show rest.foldl initStep (initStep (m, M, hs) e) = _
      rw [initStep, if_pos h8, ih]
      simp
    · rw [List.foldl_cons, keyVals_cons_other rest h8]
      show rest.foldl initStep (initStep (m, M, hs) e) = _
      rw [initStep, if_neg h8, ih]

theorem foldl_min_le_init : ∀ (l : List Nat) (m : Nat), l.foldl min m ≤ m := by
  intro l
  induction l with
  | nil => intro m; exact Nat.le_refl m
  | cons x xs ih =>
    intro m
    exact Nat.le_trans (ih (min m x)) (Nat.min_le_left m x)

theorem foldl_min_le_mem : ∀ (l : List Nat) (x : Nat), x ∈ l → ∀ m : Nat,
    l.foldl min m ≤ x := by
  intro l
  induction l with
  | nil => intro x hx; cases hx
  | cons y xs ih =>
    intro x hx m
    rcases List.mem_cons.mp hx with hx | hx
    · subst hx
      exact Nat.le_trans (foldl_min_le_init xs (min m x)) (Nat.min_le_right m x)
    · exact ih x hx (min m y)

theorem le_foldl_min : ∀ (l : List Nat) (c m : Nat), c ≤ m →
    (∀ x ∈ l, c ≤ x) → c ≤ l.foldl min m := by
  intro l
  induction l with
  | nil => intro c m hm _; exact hm
  | cons y xs ih =>
    intro c m hm hl
    exact ih c (min m y) (Nat.le_min.mpr ⟨hm, hl y (by simp)⟩)
      (fun x hx => hl x (List.mem_cons_of_mem _ hx))

theorem le_foldl_max : ∀ (l : List Nat) (m : Nat), m ≤ l.foldl max m := by
  intro l
  induction l with
  | nil => intro m; exact Nat.le_refl m
  | cons x xs ih =>
    intro m
    exact Nat.le_trans (Nat.le_max_left m x) (ih (max m x))

theorem mem_le_foldl_max : ∀ (l : List Nat) (x : Nat), x ∈ l → ∀ m : Nat,
    x ≤ l.foldl max m := by
  intro l
  induction l with
  | nil => intro x hx; cases hx
  | cons y xs ih =>
    intro x hx m
    rcases List.mem_cons.mp hx with hx | hx
    · subst hx
      exact Nat.le_trans (Nat.le_max_right m x) (le_foldl_max xs (max m x))
    · exact ih x hx (max m y)

theorem foldl_max_le : ∀ (l : List Nat) (c m : Nat), m ≤ c →
    (∀ x ∈ l, x ≤ c) → l.foldl max m ≤ c := by
  intro l
  induction l with
  | nil => intro c m hm _; exact hm
  | cons y xs ih =>
    intro c m hm hl
    exact ih c (max m y) (Nat.max_le.mpr ⟨hm, hl y (by simp)⟩)
      (fun x hx => hl x (List.mem_cons_of_mem _ hx))

/-- On a store whose entries are exactly 8-byte keys with u64 values in the
window from h to h+n (n at least 1), with the endpoints live, the recovery
scan computes head = h and tail = h + n. -/
theorem initialize_counters_spec (db : List (Bytes × Bytes)) (h n : Nat)
    (hn : 1 ≤ n) (hbound : h + n < U64MOD)
    (hmem : ∀ e ∈ db, ∃ i, i < n ∧ e.1 = u64_to_be_bytes (h + i))
    (hfirst : ∃ v, storeLookup db (u64_to_be_bytes h) = some v)
    (hlast : ∃ v, storeLookup db (u64_to_be_bytes (h + (n - 1))) = some v) :
    initialize_counters db = .ok (h, h + n) := by
  have hkv : ∀ x ∈ keyVals db, ∃ i, i < n ∧ x = h + i := by
    intro x hx
    obtain ⟨e, he, h8, hval⟩ := mem_keyVals hx
    obtain ⟨i, hi, hkey⟩ := hmem e he
    refine ⟨i, hi, ?_⟩
    rw [← hval, hkey, u64_from_be_to_be _ (by omega)]
  have hfmem : h ∈ keyVals db := by
    obtain ⟨v, hv⟩ := hfirst
    have := keyVals_mem (storeLookup_mem hv) (by rfl)
    rwa [u64_from_be_to_be _ (by omega)] at this
  have hlmem : h + (n - 1) ∈ keyVals db := by
    obtain ⟨v, hv⟩ := hlast
    have := keyVals_mem (storeLookup_mem hv) (by rfl)
    rwa [u64_from_be_to_be _ (by omega)] at this
  have hmin : (keyVals db).foldl min (U64MOD - 1) = h := by
    refine Nat.le_antisymm (foldl_min_le_mem _ h hfmem _) ?_
    refine le_foldl_min _ h _ (by omega) ?_
    intro x hx
    obtain ⟨i, _, hxe⟩ := hkv x hx
    omega
  have hmax : (keyVals db).foldl max 0 = h + (n - 1) := by
    refine Nat.le_antisymm ?_ (mem_le_foldl_max _ _ hlmem _)
    refine foldl_max_le _ (h + (n - 1)) _ (by omega) ?_
    intro x hx
    obtain ⟨i, hi, hxe⟩ := hkv x hx
    omega
  have hne : (keyVals db).isEmpty = false := by
    cases hkvs : keyVals db with
    | nil => rw [hkvs] at hfmem; cases hfmem
    | cons a l => rfl
  rw [initialize_counters, initFold_eq, hmin, hmax, hne]
  show Except.ok (h, (h + (n - 1) + 1) % U64MOD) = _
  rw [show h + (n - 1) + 1 = h + n by omega, Nat.mod_eq_of_lt hbound]

theorem Represents_pushAll : ∀ (xs : List Nat) (b : SledBuffer) (h : Nat)
    (L : List Bytes), Represents b h L →
    h + L.length + xs.length < U64MOD →
    Represents (runOps (xs.map Op.push) b).1 h (L ++ xs.map encodeU64) := by
  intro xs
  induction xs with
  | nil =>
    intro b h L hrep _
    simpa using hrep
  | cons x xs' ih =>
    intro b h L hrep hbound
    simp only [List.length_cons] at hbound
    show Represents (runOps (xs'.map Op.push) (pushU64 b x)).1 h _
    have h1 : Represents (pushU64 b x) h (L ++ [encodeU64 x]) :=
      Represents_push hrep (encodeU64 x) (by omega)
    have h2 := ih (pushU64 b x) h (L ++ [encodeU64 x]) h1
      (by simp only [List.length_append, List.length_cons, List.length_nil]
          omega)
    rw [List.append_assoc] at h2
    simpa using h2

theorem foldl_min_attained : ∀ (l : List Nat) (m : Nat),
    l.foldl min m = m ∨ l.foldl min m ∈ l := by
  intro l
  induction l with
  | nil => intro m; exact Or.inl rfl
  | cons x xs ih =>
    intro m
    rw [List.foldl_cons]
    rcases ih (min m x) with hat | hat
    · rcases min_choice m x with hc | hc
      · exact Or.inl (by rw [hat, hc])
      · exact Or.inr (by rw [hat, hc]; exact List.mem_cons_self x xs)
    · exact Or.inr (List.mem_cons_of_mem x hat)

theorem foldl_max_attained : ∀ (l : List Nat) (m : Nat),
    l.foldl max m = m ∨ l.foldl max m ∈ l := by
  intro l
  induction l with
  | nil => intro m; exact Or.inl rfl
  | cons x xs ih =>
    intro m
    rw [List.foldl_cons]
    rcases ih (max m x) with hat | hat
    · rcases max_choice m x with hc | hc
      · exact Or.inl (by rw [hat, hc])
      · exact Or.inr (by rw [hat, hc]; exact List.mem_cons_self x xs)
    · exact Or.inr (List.mem_cons_of_mem x hat)

/-- C3: the recovery scan and its consequences. First, the general scan
rule on an arbitrary store: when no key parses as an 8-byte counter the
counters are head = tail = 0; otherwise head is the minimum observed key
value and tail the maximum observed key value plus one (stated for stores
whose observed values leave room for that successor, as any u64 key below
the maximal one does). Second, reopening any store that holds items L at
consecutive keys starting from an arbitrary h — a partially consumed store
with h above 0 included — resumes at head = h, tail = h + L.length, and
L.length shifts recover L in the original order without error. Third, the
claim's concrete scenario: after pushing N items into a freshly opened
store, reopening recovers head = 0, tail = N and N shifts return all N
items in push order. Fourth, reopening an empty store gives
head = tail = 0 and an immediate empty shift. -/
theorem c3_recovery :
    (∀ db : List (Bytes × Bytes), (∀ x ∈ keyVals db, x + 1 < U64MOD) →
      (keyVals db = [] → initialize_counters db = .ok (0, 0)) ∧
      (keyVals db ≠ [] → ∃ mn mx, mn ∈ keyVals db ∧ mx ∈ keyVals db ∧
        (∀ x ∈ keyVals db, mn ≤ x ∧ x ≤ mx) ∧
        initialize_counters db = .ok (mn, mx + 1))) ∧
    (∀ (b : SledBuffer) (h : Nat) (L : List Nat),
      Represents b h (L.map encodeU64) → (∀ x ∈ L, x < U64MOD) → L ≠ [] →
      ∃ b2, sledNew b.db = .ok b2 ∧ b2.head = h ∧ b2.tail = h + L.length ∧
        shiftSomes (runOps (List.replicate L.length Op.shift) b2).2 = L ∧
        (∀ r ∈ (runOps (List.replicate L.length Op.shift) b2).2,
          ∃ o, r = Except.ok o)) ∧
    (∀ L : List Nat, L ≠ [] → (∀ x ∈ L, x < U64MOD) → L.length < U64MOD →
      ∃ b2, sledNew (runOps (L.map Op.push) ⟨[], 0, 0⟩).1.db = .ok b2 ∧
        b2.head = 0 ∧ b2.tail = L.length ∧
        shiftSomes (runOps (List.replicate L.length Op.shift) b2).2 = L ∧
        (∀ r ∈ (runOps (List.replicate L.length Op.shift) b2).2,
          ∃ o, r = Except.ok o)) ∧
    sledNew ([] : List (Bytes × Bytes)) = .ok ⟨[], 0, 0⟩ ∧
    shiftU64 ⟨[], 0, 0⟩ = (⟨[], 0, 0⟩, .ok none) := by
  have hscan : ∀ db : List (Bytes × Bytes),
      (∀ x ∈ keyVals db, x + 1 < U64MOD) →
      (keyVals db = [] → initialize_counters db = .ok (0, 0)) ∧
      (keyVals db ≠ [] → ∃ mn mx, mn ∈ keyVals db ∧ mx ∈ keyVals db ∧
        (∀ x ∈ keyVals db, mn ≤ x ∧ x ≤ mx) ∧
        initialize_counters db = .ok (mn, mx + 1)) := by
    intro db hroom
    constructor
    · intro hkv
      rw [initialize_counters, initFold_eq, hkv]
      rfl
    · intro hkvne
      obtain ⟨w, hw⟩ : ∃ w, w ∈ keyVals db := by
        cases hkvs : keyVals db with
        | nil => exact absurd hkvs hkvne
        | cons a l => exact ⟨a, List.mem_cons_self a l⟩
      have hU : (0 : Nat) < U64MOD := by decide
      have hmn : (keyVals db).foldl min (U64MOD - 1) ∈ keyVals db := by
        rcases foldl_min_attained (keyVals db) (U64MOD - 1) with hat | hat
        · exfalso
          have h1 := foldl_min_le_mem _ w hw (U64MOD - 1)
          have h2 := hroom w hw
          rw [hat] at h1
          omega
        · exact hat
      have hmx : (keyVals db).foldl max 0 ∈ keyVals db := by
        rcases foldl_max_attained (keyVals db) 0 with hat | hat
        · have h1 := mem_le_foldl_max _ w hw 0
          rw [hat] at h1
          have hw0 : w = 0 := Nat.le_zero.mp h1
          rw [hat, ← hw0]
          exact hw
        · exact hat
      have hmx1 : (keyVals db).foldl max 0 + 1 < U64MOD := hroom _ hmx
      refine ⟨_, _, hmn, hmx, ?_, ?_⟩
      · intro x hx
        exact ⟨foldl_min_le_mem _ x hx _, mem_le_foldl_max _ x hx _⟩
      · rw [initialize_counters, initFold_eq]
        have hflag : (false || !(keyVals db).isEmpty) = true := by
          cases hkvs : keyVals db with
          | nil => exact absurd hkvs hkvne
          | cons a l => rfl
        rw [if_pos hflag, Nat.mod_eq_of_lt hmx1]
  have hgen : ∀ (b : SledBuffer) (h : Nat) (L : List Nat),
      Represents b h (L.map encodeU64) → (∀ x ∈ L, x < U64MOD) → L ≠ [] →
      ∃ b2, sledNew b.db = .ok b2 ∧ b2.head = h ∧ b2.tail = h + L.length ∧
        shiftSomes (runOps (List.replicate L.length Op.shift) b2).2 = L ∧
        (∀ r ∈ (runOps (List.replicate L.length Op.shift) b2).2,
          ∃ o, r = Except.ok o) := by
    intro b h L hrep hv hne
    obtain ⟨hh, ht, hb, hlook, hmem⟩ := hrep
    have hlpos : 0 < L.length := List.length_pos.mpr hne
    have hmepos : 0 < (L.map encodeU64).length := by simpa using hlpos
    have hinit : initialize_counters b.db = .ok (h, h + L.length) := by
      have := initialize_counters_spec b.db h (L.map encodeU64).length
        (by omega) hb hmem
        ⟨(L.map encodeU64).get ⟨0, hmepos⟩, by
          have hl0 := hlook 0 hmepos
          rw [Nat.add_zero] at hl0
          rw [hl0, List.get?_eq_get hmepos]⟩
        ⟨(L.map encodeU64).get ⟨(L.map encodeU64).length - 1, by omega⟩,
          by rw [hlook _ (by omega : (L.map encodeU64).length - 1
              < (L.map encodeU64).length),
            List.get?_eq_get]⟩
      simpa using this
    have hrep2 : Represents ⟨b.db, h, h + L.length⟩ h (L.map encodeU64) :=
      ⟨rfl, by simp, hb, hlook, hmem⟩
    refine ⟨⟨b.db, h, h + L.length⟩, ?_, rfl, rfl, ?_, ?_⟩
    · rw [sledNew, hinit]
      rfl
    · have hd := (runOps_drain L 0 _ h hrep2 hv).1
      rwa [Nat.add_zero] at hd
    · have hd := (runOps_drain L 0 _ h hrep2 hv).2
      rwa [Nat.add_zero] at hd
  refine ⟨hscan, hgen, ?_, by rfl, by rfl⟩
  intro L hne hv hlen
  have hrep1 := Represents_pushAll L ⟨[], 0, 0⟩ 0 [] Represents_nil_fresh
    (by simpa using hlen)
  rw [List.nil_append] at hrep1
  obtain ⟨b2, hb2, hhead, htail, hdrain, hok⟩ :=
    hgen (runOps (L.map Op.push) ⟨[], 0, 0⟩).1 0 L hrep1 hv hne
  exact ⟨b2, hb2, hhead, by rw [htail]; omega, hdrain, hok⟩

/-- Witness for c3_recovery: the scan rule on a two-entry store whose keys
are 5 and 3 (minimum 3, so a window starting above 0); the reopen-and-drain
rule on a partially consumed store holding one item at key 4 (head resumes
at 4, not 0); and the fresh-push scenario at the item list 5, 300, 7. -/
theorem c3_recovery_witness :
    ((∀ x ∈ keyVals [(u64_to_be_bytes 5, [7]), (u64_to_be_bytes 3, [9])],
        x + 1 < U64MOD) ∧
     ((keyVals [(u64_to_be_bytes 5, [7]), (u64_to_be_bytes 3, [9])] = [] →
        initialize_counters [(u64_to_be_bytes 5, [7]),
          (u64_to_be_bytes 3, [9])] = .ok (0, 0)) ∧
      (keyVals [(u64_to_be_bytes 5, [7]), (u64_to_be_bytes 3, [9])] ≠ [] →
        ∃ mn mx,
        mn ∈ keyVals [(u64_to_be_bytes 5, [7]), (u64_to_be_bytes 3, [9])] ∧
        mx ∈ keyVals [(u64_to_be_bytes 5, [7]), (u64_to_be_bytes 3, [9])] ∧
        (∀ x ∈ keyVals [(u64_to_be_bytes 5, [7]), (u64_to_be_bytes 3, [9])],
          mn ≤ x ∧ x ≤ mx) ∧
        initialize_counters [(u64_to_be_bytes 5, [7]),
          (u64_to_be_bytes 3, [9])] = .ok (mn, mx + 1)))) ∧
    (Represents ⟨[(u64_to_be_bytes 4, encodeU64 9)], 4, 5⟩ 4
        (([9] : List Nat).map encodeU64) ∧
     (∀ x ∈ ([9] : List Nat), x < U64MOD) ∧ ([9] : List Nat) ≠ [] ∧
     (∃ b2, sledNew (⟨[(u64_to_be_bytes 4, encodeU64 9)], 4, 5⟩
          : SledBuffer).db = .ok b2 ∧
        b2.head = 4 ∧ b2.tail = 4 + ([9] : List Nat).length ∧
        shiftSomes (runOps (List.replicate ([9] : List Nat).length Op.shift)
          b2).2 = [9] ∧
        (∀ r ∈ (runOps (List.replicate ([9] : List Nat).length Op.shift)
            b2).2, ∃ o, r = Except.ok o))) ∧
    (([5, 300, 7] : List Nat) ≠ [] ∧
     (∀ x ∈ ([5, 300, 7] : List Nat), x < U64MOD) ∧
     ([5, 300, 7] : List Nat).length < U64MOD ∧
     (∃ b2, sledNew (runOps (([5, 300, 7] : List Nat).map Op.push)
          ⟨[], 0, 0⟩).1.db = .ok b2 ∧
        b2.head = 0 ∧ b2.tail = ([5, 300, 7] : List Nat).length ∧
        shiftSomes (runOps
          (List.replicate ([5, 300, 7] : List Nat).length Op.shift) b2).2
          = [5, 300, 7] ∧
        (∀ r ∈ (runOps
            (List.replicate ([5, 300, 7] : List Nat).length Op.shift) b2).2,
          ∃ o, r = Except.ok o))) :=
  ⟨⟨by decide, c3_recovery.1 [(u64_to_be_bytes 5, [7]),
      (u64_to_be_bytes 3, [9])] (by decide)⟩,
   ⟨by unfold Represents; decide, by decide, by decide,
    c3_recovery.2.1 ⟨[(u64_to_be_bytes 4, encodeU64 9)], 4, 5⟩ 4 [9]
      (by unfold Represents; decide) (by decide) (by decide)⟩,
   ⟨by decide, by decide, by decide,
    c3_recovery.2.2.1 [5, 300, 7] (by decide) (by decide) (by decide)⟩⟩

/-! Claim C4: what the recovery scan does with a key that is not 8 bytes. -/

theorem keyVals_filter_eight (db : List (Bytes × Bytes)) :
    keyVals (db.filter fun e => decide (e.1.length = 8)) = keyVals db := by
  induction db with
  | nil => rfl
  | cons e rest ih =>
    rw [List.filter_cons]
    by_cases h8 : e.1.length = 8
    · rw [if_pos (by simp [h8]), keyVals_cons_eight _ h8,
        keyVals_cons_eight _ h8, ih]
    · rw [if_neg (by simp [h8]), keyVals_cons_other _ h8, ih]

/-- C4 counterexample: a store holding one entry under a 3-byte key. The
recovery scan skips the key (the length-8 test fails before the conversion
guarded by InvalidSledKeyFormat is ever reached), finds no 8-byte keys, and
construction succeeds with head = tail = 0 instead of failing with a
key-format error. -/
theorem c4_short_key_ignored_counterexample :
    initialize_counters [([1, 2, 3], [0])] = .ok (0, 0) ∧
    sledNew [([1, 2, 3], [0])] = .ok ⟨[([1, 2, 3], [0])], 0, 0⟩ := by
  constructor
  · rfl
  · rfl

/-- C4 amended: during the recovery scan, a key that is not 8 bytes long is
ignored: the computed counters coincide with those of the store restricted
to its 8-byte keys, and construction always succeeds; the scan never
produces the key-format error. -/
theorem c4_short_key_ignored (db : List (Bytes × Bytes)) :
    initialize_counters db
      = initialize_counters (db.filter fun e => decide (e.1.length = 8)) ∧
    ∃ p, initialize_counters db = .ok p := by
  constructor
  · rw [initialize_counters, initialize_counters, initFold_eq, initFold_eq,
      keyVals_filter_eight]
  · rw [initialize_counters]
    by_cases hflag : ((db.foldl initStep (U64MOD - 1, 0, false)).2.2 : Bool)
    · exact ⟨_, by rw [if_pos hflag]⟩
    · exact ⟨_, by rw [if_neg hflag]⟩

/-! Claim C7: termination and progress of the shift loop. -/

/-- C7: every shift call terminates without error or blocking. With head at
or past tail it returns none at once; otherwise any fuel of at least
tail - head passes computes the same result as shiftBytes, whose own cap is
exactly tail - head, so the loop runs at most tail - head passes; and each
pass either removes and returns the value at key head, or, on a gap,
advances head by one and retries on the strictly smaller window. The byte
level loop itself returns no error (gaps are treated as already consumed). -/
theorem c7_shift_terminates :
    (∀ b : SledBuffer, b.tail ≤ b.head → shiftBytes b = (b, none)) ∧
    (∀ (b : SledBuffer) (fuel : Nat), b.tail < U64MOD →
      b.tail - b.head ≤ fuel → shiftLoop fuel b = shiftBytes b) ∧
    (∀ b : SledBuffer, b.head < b.tail → b.tail < U64MOD →
      ((∃ d, storeLookup b.db (u64_to_be_bytes b.head) = some d ∧
        shiftBytes b = (⟨storeErase b.db (u64_to_be_bytes b.head),
          b.head + 1, b.tail⟩, some d)) ∨
       (storeLookup b.db (u64_to_be_bytes b.head) = none ∧
        shiftBytes b = shiftBytes ⟨storeErase b.db (u64_to_be_bytes b.head),
          b.head + 1, b.tail⟩))) := by
  refine ⟨?_, ?_, ?_⟩
  · intro b hle
    rw [shiftBytes, Nat.sub_eq_zero_of_le hle]
    rfl
  · intro b fuel hmod hfuel
    exact shiftLoop_fuel fuel b hmod hfuel
  · intro b hlt hmod
    have hd : b.tail - b.head = (b.tail - b.head - 1) + 1 := by omega
    have hmod1 : (b.head + 1) % U64MOD = b.head + 1 :=
      Nat.mod_eq_of_lt (by omega)
    cases hrm : storeLookup b.db (u64_to_be_bytes b.head) with
    | some data =>
      left
      refine ⟨data, rfl, ?_⟩
      rw [shiftBytes, hd]
      simp only [shiftLoop, if_neg (by omega : ¬ b.tail ≤ b.head), hrm, hmod1]
    | none =>
      right
      refine ⟨rfl, ?_⟩
      rw [shiftBytes, hd]
      simp only [shiftLoop, if_neg (by omega : ¬ b.tail ≤ b.head), hrm, hmod1]
      rw [shiftLoop_fuel _ _ (by simpa) (by simp; omega)]

/-- Witness for c7_shift_terminates: the empty buffer returns none at once;
on a buffer with a gap at key 0 and a value at key 1, fuel 5 computes the
shift and the first pass takes the gap branch. -/
theorem c7_shift_terminates_witness :
    (shiftBytes ⟨[], 0, 0⟩ = (⟨[], 0, 0⟩, none)) ∧
    (shiftLoop 5 ⟨[(u64_to_be_bytes 1, [42])], 0, 2⟩
      = shiftBytes ⟨[(u64_to_be_bytes 1, [42])], 0, 2⟩) ∧
    ((∃ d, storeLookup (⟨[(u64_to_be_bytes 1, [42])], 0, 2⟩ : SledBuffer).db
        (u64_to_be_bytes 0) = some d ∧
      shiftBytes ⟨[(u64_to_be_bytes 1, [42])], 0, 2⟩
        = (⟨storeErase [(u64_to_be_bytes 1, [42])] (u64_to_be_bytes 0),
            1, 2⟩, some d)) ∨
     (storeLookup (⟨[(u64_to_be_bytes 1, [42])], 0, 2⟩ : SledBuffer).db
        (u64_to_be_bytes 0) = none ∧
      shiftBytes ⟨[(u64_to_be_bytes 1, [42])], 0, 2⟩
        = shiftBytes ⟨storeErase [(u64_to_be_bytes 1, [42])]
            (u64_to_be_bytes 0), 1, 2⟩)) :=
  ⟨c7_shift_terminates.1 ⟨[], 0, 0⟩ (by decide),
   c7_shift_terminates.2.1 ⟨[(u64_to_be_bytes 1, [42])], 0, 2⟩ 5 (by decide)
     (by decide),
   c7_shift_terminates.2.2 ⟨[(u64_to_be_bytes 1, [42])], 0, 2⟩ (by decide)
     (by decide)⟩

/-! Claim C10: a decode failure in shift is not atomic. -/

theorem shiftLoop_preserves_absent : ∀ (fuel : Nat) (s : SledBuffer)
    (k : Bytes), storeLookup s.db k = none →
    storeLookup (shiftLoop fuel s).1.db k = none := by
  intro fuel
  induction fuel with
  | zero => intro s k hk; exact hk
  | succ f ih =>
    intro s k hk
    by_cases hle : s.tail ≤ s.head
    · simp only [shiftLoop, if_pos hle]
      exact hk
    · simp only [shiftLoop, if_neg hle]
      cases hrm : storeLookup s.db (u64_to_be_bytes s.head) with
      | some data => exact storeLookup_erase_none hk
      | none => exact ih _ k (storeLookup_erase_none hk)

theorem shiftU64_fst (s : SledBuffer) : (shiftU64 s).1 = (shiftBytes s).1 := by
  rw [shiftU64]
  rcases hsb : shiftBytes s with ⟨s2, r⟩
  cases r with
  | none => rfl
  | some data =>
    dsimp only
    cases hdec : decodeU64 data with
    | ok x => rfl
    | error e => rfl

/-- C10: in shift, head is advanced past the removed key before the bytes
are decoded. If decoding fails, the call returns the decode error with head
already advanced and the bytes gone from the store, and since shift only
ever removes entries, no later shift can re-deliver that item: the
operation is not atomic on a decode error. -/
theorem c10_decode_error_not_atomic (b : SledBuffer) (data : Bytes)
    (e : Error) (hlt : b.head < b.tail) (hmod : b.tail < U64MOD)
    (hdata : storeLookup b.db (u64_to_be_bytes b.head) = some data)
    (hdec : decodeU64 data = .error e) :
    shiftU64 b = (⟨storeErase b.db (u64_to_be_bytes b.head), b.head + 1,
      b.tail⟩, .error e) ∧
    storeLookup (shiftU64 b).1.db (u64_to_be_bytes b.head) = none ∧
    (∀ s : SledBuffer, storeLookup s.db (u64_to_be_bytes b.head) = none →
      storeLookup (shiftU64 s).1.db (u64_to_be_bytes b.head) = none) := by
  have hsb : shiftBytes b = (⟨storeErase b.db (u64_to_be_bytes b.head),
      b.head + 1, b.tail⟩, some data) := by
    have hd : b.tail - b.head = (b.tail - b.head - 1) + 1 := by omega
    rw [shiftBytes, hd]
    simp only [shiftLoop, if_neg (by omega : ¬ b.tail ≤ b.head), hdata,
      Nat.mod_eq_of_lt (by omega : b.head + 1 < U64MOD)]
  have hmain : shiftU64 b = (⟨storeErase b.db (u64_to_be_bytes b.head),
      b.head + 1, b.tail⟩, .error e) := by
    rw [shiftU64, hsb]
    dsimp only
    rw [hdec]
  refine ⟨hmain, ?_, ?_⟩
  · rw [hmain]
    exact storeLookup_erase_self _ _
  · intro s hs
    rw [shiftU64_fst]
    exact shiftLoop_preserves_absent _ s _ hs

/-- Witness for c10_decode_error_not_atomic: key 0 holds the single byte
255, which bincode decoding rejects; after the failed shift the entry is
gone and head is 1. -/
theorem c10_decode_error_not_atomic_witness :
    ((⟨[(u64_to_be_bytes 0, [255])], 0, 1⟩ : SledBuffer).head
      < (⟨[(u64_to_be_bytes 0, [255])], 0, 1⟩ : SledBuffer).tail) ∧
    ((⟨[(u64_to_be_bytes 0, [255])], 0, 1⟩ : SledBuffer).tail < U64MOD) ∧
    storeLookup [(u64_to_be_bytes 0, [255])] (u64_to_be_bytes 0)
      = some [255] ∧
    decodeU64 [255] = .error Error.DecodeError ∧
    (shiftU64 ⟨[(u64_to_be_bytes 0, [255])], 0, 1⟩
      = (⟨storeErase [(u64_to_be_bytes 0, [255])] (u64_to_be_bytes 0),
          0 + 1, 1⟩, .error Error.DecodeError) ∧
    storeLookup (shiftU64 ⟨[(u64_to_be_bytes 0, [255])], 0, 1⟩).1.db
      (u64_to_be_bytes 0) = none ∧
    (∀ s : SledBuffer, storeLookup s.db (u64_to_be_bytes 0) = none →
      storeLookup (shiftU64 s).1.db (u64_to_be_bytes 0) = none)) :=
  ⟨by decide, by decide, by decide, by rfl,
   c10_decode_error_not_atomic ⟨[(u64_to_be_bytes 0, [255])], 0, 1⟩ [255]
     Error.DecodeError (by decide) (by decide) (by decide) (by rfl)⟩

/-! Claim C6: the head/tail window invariant of the persistent buffer. -/

/-- The invariant: head ≤ tail, tail in u64 range, and every stored key is
the 8-byte big-endian encoding of a counter in the window from head
(inclusive) to tail (exclusive). -/
def SledInv (b : SledBuffer) : Prop :=
  b.head ≤ b.tail ∧ b.tail < U64MOD ∧
  ∀ e ∈ b.db, ∃ i < b.tail, b.head ≤ i ∧ e.1 = u64_to_be_bytes i

/-- A store whose contents could have been produced by this buffer: every
key is 8 well-formed bytes, and its counter value leaves room for the
successor taken by tail = max + 1. -/
def ProducedStore (db : List (Bytes × Bytes)) : Prop :=
  ∀ e ∈ db, e.1.length = 8 ∧ (∀ y ∈ e.1, y < 256) ∧
    u64_from_be_bytes e.1 + 1 < U64MOD

theorem sledNew_inv (db : List (Bytes × Bytes)) (b : SledBuffer)
    (hwf : ProducedStore db) (hnew : sledNew db = .ok b) : SledInv b := by
  have hkvlt : ∀ x ∈ keyVals db, x + 1 < U64MOD := by
    intro x hx
    obtain ⟨e, he, h8, hval⟩ := mem_keyVals hx
    have := (hwf e he).2.2
    omega
  rw [sledNew, initialize_counters, initFold_eq] at hnew
  by_cases hflag : ((false || !(keyVals db).isEmpty) : Bool)
  · rw [if_pos hflag] at hnew
    simp only [Except.map] at hnew
    injection hnew with hnew
    subst hnew
    have hkvne : keyVals db ≠ [] := by
      intro hc
      rw [Bool.false_or, hc] at hflag
      cases hflag
    obtain ⟨w, hw⟩ : ∃ w, w ∈ keyVals db := by
      cases hkvs : keyVals db with
      | nil => exact absurd hkvs hkvne
      | cons a l => exact ⟨a, List.mem_cons_self a l⟩
    have hmaxle : (keyVals db).foldl max 0 + 1 < U64MOD := by
      have h1 : (keyVals db).foldl max 0 ≤ U64MOD - 2 := by
        refine foldl_max_le _ (U64MOD - 2) 0 (by simp [U64MOD]) ?_
        intro x hx
        have := hkvlt x hx
        omega
      simp only [U64MOD] at h1 ⊢
      omega
    have htmod : ((keyVals db).foldl max 0 + 1) % U64MOD
        = (keyVals db).foldl max 0 + 1 := Nat.mod_eq_of_lt hmaxle
    refine ⟨?_, ?_, ?_⟩
    · show (keyVals db).foldl min (U64MOD - 1)
        ≤ ((keyVals db).foldl max 0 + 1) % U64MOD
      rw [htmod]
      have h1 := foldl_min_le_mem _ w hw (U64MOD - 1)
      have h2 := mem_le_foldl_max _ w hw 0
      omega
    · show ((keyVals db).foldl max 0 + 1) % U64MOD < U64MOD
      rw [htmod]
      exact hmaxle
    · intro e he
      obtain ⟨h8, hbytes, hroom⟩ := hwf e he
      have hkey : e.1 = u64_to_be_bytes (u64_from_be_bytes e.1) :=
        (u64_be_from_be e.1 h8 hbytes).symm
      have hmem2 : u64_from_be_bytes e.1 ∈ keyVals db := keyVals_mem he h8
      refine ⟨u64_from_be_bytes e.1, ?_, ?_, hkey⟩
      · show _ < ((keyVals db).foldl max 0 + 1) % U64MOD
        rw [htmod]
        have := mem_le_foldl_max _ _ hmem2 0
        omega
      · exact foldl_min_le_mem _ _ hmem2 _
  · rw [if_neg hflag] at hnew
    simp only [Except.map] at hnew
    injection hnew with hnew
    subst hnew
    have hdbnil : db = [] := by
      cases hdb : db with
      | nil => rfl
      | cons e rest =>
        exfalso
        have h8 : e.1.length = 8 := (hwf e (by rw [hdb]; simp)).1
        have : keyVals db = u64_from_be_bytes e.1 :: keyVals rest := by
          rw [hdb]
          exact keyVals_cons_eight rest h8
        rw [Bool.false_or, this] at hflag
        exact hflag rfl
    refine ⟨Nat.le_refl 0, by simp [U64MOD], ?_⟩
    intro e he
    rw [hdbnil] at he
    cases he

theorem pushBytes_inv {b : SledBuffer} (hinv : SledInv b) (v : Bytes)
    (hroom : b.tail + 1 < U64MOD) : SledInv (pushBytes b v) := by
  obtain ⟨hht, htm, hmem⟩ := hinv
  have htail : (pushBytes b v).tail = b.tail + 1 := Nat.mod_eq_of_lt hroom
  refine ⟨?_, ?_, ?_⟩
  · show b.head ≤ (pushBytes b v).tail
    rw [htail]
    omega
  · rw [htail]
    exact hroom
  · intro e he
    rcases List.mem_cons.mp he with he | he
    · refine ⟨b.tail, ?_, hht, by rw [he]⟩
      rw [htail]
      omega
    · obtain ⟨i, hi, hhi, hkey⟩ := hmem e (mem_storeErase he).1
      refine ⟨i, ?_, hhi, hkey⟩
      rw [htail]
      omega

theorem shiftLoop_inv : ∀ (fuel : Nat) (b : SledBuffer), SledInv b →
    SledInv (shiftLoop fuel b).1 := by
  intro fuel
  induction fuel with
  | zero => intro b hinv; exact hinv
  | succ f ih =>
    intro b hinv
    obtain ⟨hht, htm, hmem⟩ := hinv
    by_cases hle : b.tail ≤ b.head
    · simp only [shiftLoop, if_pos hle]
      exact ⟨hht, htm, hmem⟩
    · simp only [shiftLoop, if_neg hle]
      have hmod : (b.head + 1) % U64MOD = b.head + 1 :=
        Nat.mod_eq_of_lt (by omega)
      have hnext : SledInv ⟨storeErase b.db (u64_to_be_bytes b.head),
          (b.head + 1) % U64MOD, b.tail⟩ := by
        refine ⟨?_, htm, ?_⟩
        · show (b.head + 1) % U64MOD ≤ b.tail
          rw [hmod]
          omega
        · intro e he
          obtain ⟨hmem2, hne⟩ := mem_storeErase he
          obtain ⟨i, hi, hhi, hkey⟩ := hmem e hmem2
          have hine : i ≠ b.head := fun hc => hne (by rw [hkey, hc])
          refine ⟨i, hi, ?_, hkey⟩
          show (b.head + 1) % U64MOD ≤ i
          rw [hmod]
          omega
      cases hrm : storeLookup b.db (u64_to_be_bytes b.head) with
      | some data => exact hnext
      | none => exact ih _ hnext

theorem shiftU64_inv {b : SledBuffer} (hinv : SledInv b) :
    SledInv (shiftU64 b).1 := by
  rw [shiftU64_fst, shiftBytes]
  exact shiftLoop_inv _ b hinv

/-- C6: the window invariant — head ≤ tail and every stored key inside
the window — is established by construction on a store whose keys were
produced by this buffer, and preserved by every push (within the u64 range)
and every shift. -/
theorem c6_window_invariant :
    (∀ (db : List (Bytes × Bytes)) (b : SledBuffer), ProducedStore db →
      sledNew db = .ok b → SledInv b) ∧
    (∀ (b : SledBuffer) (v : Bytes), SledInv b → b.tail + 1 < U64MOD →
      SledInv (pushBytes b v)) ∧
    (∀ b : SledBuffer, SledInv b → SledInv (shiftU64 b).1) :=
  ⟨sledNew_inv, fun _ v hinv hroom => pushBytes_inv hinv v hroom,
   fun _ hinv => shiftU64_inv hinv⟩

/-- Witness for c6_window_invariant: a store with one well-formed key
establishes the invariant on construction, and the invariant survives a
push followed by a shift on a concrete buffer. -/
theorem c6_window_invariant_witness :
    (ProducedStore [(u64_to_be_bytes 4, [9])] ∧
      SledInv ⟨[(u64_to_be_bytes 4, [9])], 4, 5⟩) ∧
    (SledInv ⟨[], 0, 0⟩ ∧ 0 + 1 < U64MOD ∧
      SledInv (pushBytes ⟨[], 0, 0⟩ [7])) ∧
    SledInv (shiftU64 (pushBytes ⟨[], 0, 0⟩ [7])).1 := by
  have hprod : ProducedStore [(u64_to_be_bytes 4, [9])] := by
    intro e he
    simp only [List.mem_singleton] at he
    subst he
    refine ⟨rfl, by decide, by decide⟩
  have hinv0 : SledInv ⟨[], 0, 0⟩ := by
    refine ⟨Nat.le_refl 0, by decide, ?_⟩
    intro e he
    cases he
  have hnew : sledNew [(u64_to_be_bytes 4, [9])]
      = .ok ⟨[(u64_to_be_bytes 4, [9])], 4, 5⟩ := by rfl
  have hpush : SledInv (pushBytes ⟨[], 0, 0⟩ [7]) :=
    c6_window_invariant.2.1 ⟨[], 0, 0⟩ [7] hinv0 (by decide)
  exact ⟨⟨hprod, c6_window_invariant.1 _ _ hprod hnew⟩,
    ⟨hinv0, by decide, hpush⟩,
    c6_window_invariant.2.2 _ hpush⟩

/-! The in-memory priority buffer of src/buffer/queue.rs: a Mutex-guarded
BinaryHeap. The heap is modelled as the multiset of its elements (a list):
BinaryHeap push adds an element, BinaryHeap pop removes and returns a
maximum element; ties resolve in an order the source leaves unspecified,
and the model removes the first occurrence of the computed maximum, one
legitimate determinization. The poisoned flag models a PoisonError pending
on the Mutex after a holder exited abnormally; lock then fails and the
question-mark operator surfaces Error.MutexError through the
From PoisonError conversion in src/error.rs. -/

structure QueueState (T : Type) where
  heap : List T
  poisoned : Bool

/-- The maximum of a list of totally ordered items, none when empty. -/
def listMax {T : Type} [LinearOrder T] : List T → Option T
  | [] => none
  | x :: xs =>
    match listMax xs with
    | none => some x
    | some m => some (max x m)

/-- Mirror of ExternalBufferQueue push: acquire the lock (an error when
poisoned), then push onto the heap. Never rejects for capacity. -/
def queuePush {T : Type} [LinearOrder T] (q : QueueState T) (item : T) :
    QueueState T × Except Error Unit :=
  if q.poisoned then (q, .error .MutexError)
  else ({ q with heap := item :: q.heap }, .ok ())

/-- Mirror of ExternalBufferQueue shift: acquire the lock (an error when
poisoned), then pop the heap maximum, none when empty. -/
def queueShift {T : Type} [LinearOrder T] [DecidableEq T]
    (q : QueueState T) : QueueState T × Except Error (Option T) :=
  if q.poisoned then (q, .error .MutexError)
  else
    match listMax q.heap with
    | none => (q, .ok none)
    | some m => ({ q with heap := q.heap.erase m }, .ok (some m))

theorem listMax_mem {T : Type} [LinearOrder T] :
    ∀ (l : List T) (m : T), listMax l = some m → m ∈ l := by
  intro l
  induction l with
  | nil => intro m hm; cases hm
  | cons x xs ih =>
    intro m hm
    rw [listMax] at hm
    cases hxs : listMax xs with
    | none =>
      rw [hxs] at hm
      injection hm with hm
      rw [← hm]
      exact List.mem_cons_self x xs
    | some w =>
      rw [hxs] at hm
      injection hm with hm
      rcases max_choice x w with hc | hc
      · rw [← hm, hc]
        exact List.mem_cons_self x xs
      · rw [← hm, hc]
        exact List.mem_cons_of_mem x (ih w hxs)

theorem listMax_ge {T : Type} [LinearOrder T] :
    ∀ (l : List T) (m : T), listMax l = some m → ∀ y ∈ l, y ≤ m := by
  intro l
  induction l with
  | nil => intro m _ y hy; cases hy
  | cons x xs ih =>
    intro m hm y hy
    rw [listMax] at hm
    cases hxs : listMax xs with
    | none =>
      rw [hxs] at hm
      injection hm with hm
      cases xs with
      | nil =>
        rcases List.mem_cons.mp hy with hy | hy
        · rw [hy, hm]
        · cases hy
      | cons a l2 =>
        rw [listMax] at hxs
        cases hl2 : listMax l2 with
        | none =>
          rw [hl2] at hxs
          cases hxs
        | some w2 =>
          rw [hl2] at hxs
          cases hxs
    | some w =>
      rw [hxs] at hm
      injection hm with hm
      rcases List.mem_cons.mp hy with hy | hy
      · rw [hy, ← hm]
        exact le_max_left x w
      · exact le_trans (ih w hxs y hy) (by rw [← hm]; exact le_max_right x w)

theorem listMax_of_ne_nil {T : Type} [LinearOrder T] :
    ∀ l : List T, l ≠ [] → ∃ m, listMax l = some m := by
  intro l hne
  cases l with
  | nil => exact absurd rfl hne
  | cons x xs =>
    rw [listMax]
    cases listMax xs with
    | none => exact ⟨x, rfl⟩
    | some w => exact ⟨max x w, rfl⟩

/-- C8: once the guard is poisoned by a holder that exited abnormally,
every subsequent push and every subsequent shift surfaces the explicit
mutex error and leaves the buffer state unchanged (in particular still
poisoned), so the operations neither deadlock nor mutate the heap. -/
theorem c8_poisoned_mutex_errors {T : Type} [LinearOrder T] [DecidableEq T]
    (q : QueueState T) (hp : q.poisoned = true) :
    (∀ item : T, queuePush q item = (q, .error .MutexError)) ∧
    queueShift q = (q, .error .MutexError) := by
  constructor
  · intro item
    rw [queuePush, if_pos hp]
  · rw [queueShift, if_pos hp]

/-- Witness for c8_poisoned_mutex_errors on a poisoned buffer over Nat. -/
theorem c8_poisoned_mutex_errors_witness :
    (⟨[3], true⟩ : QueueState Nat).poisoned = true ∧
    (∀ item : Nat, queuePush (⟨[3], true⟩ : QueueState Nat) item
      = (⟨[3], true⟩, .error .MutexError)) ∧
    queueShift (⟨[3], true⟩ : QueueState Nat)
      = (⟨[3], true⟩, .error .MutexError) :=
  ⟨rfl, (c8_poisoned_mutex_errors ⟨[3], true⟩ rfl).1,
   (c8_poisoned_mutex_errors ⟨[3], true⟩ rfl).2⟩

/-- C9: on an unpoisoned in-memory buffer, shift of a non-empty heap
returns some item maximal among all buffered items (removing one occurrence
of it), shift of the empty heap returns Ok none, and push always succeeds:
it never rejects for capacity. -/
theorem c9_priority_shift_max {T : Type} [LinearOrder T] [DecidableEq T]
    (q : QueueState T) (hp : q.poisoned = false) :
    (q.heap ≠ [] → ∃ m, queueShift q
       = (⟨q.heap.erase m, false⟩, .ok (some m))
       ∧ m ∈ q.heap ∧ ∀ y ∈ q.heap, y ≤ m) ∧
    (q.heap = [] → queueShift q = (q, .ok none)) ∧
    (∀ item : T, queuePush q item = (⟨item :: q.heap, false⟩, .ok ())) := by
  have hnp : ¬ (q.poisoned = true) := by rw [hp]; exact Bool.false_ne_true
  refine ⟨?_, ?_, ?_⟩
  · intro hne
    obtain ⟨m, hm⟩ := listMax_of_ne_nil q.heap hne
    refine ⟨m, ?_, listMax_mem _ _ hm, listMax_ge _ _ hm⟩
    rw [queueShift, if_neg hnp, hm]
    show ({ q with heap := q.heap.erase m }, Except.ok (some m)) = _
    rw [show ({ q with heap := q.heap.erase m } : QueueState T)
      = ⟨q.heap.erase m, q.poisoned⟩ from rfl, hp]
  · intro hempty
    rw [queueShift, if_neg hnp, hempty]
    rfl
  · intro item
    rw [queuePush, if_neg hnp,
      show ({ q with heap := item :: q.heap } : QueueState T)
        = ⟨item :: q.heap, q.poisoned⟩ from rfl, hp]

/-- Witness for c9_priority_shift_max on the heap holding 2, 9, 5: shift
returns 9, the maximum; the empty heap returns none; push succeeds. -/
theorem c9_priority_shift_max_witness :
    ((⟨[2, 9, 5], false⟩ : QueueState Nat).poisoned = false ∧
     ((⟨[2, 9, 5], false⟩ : QueueState Nat).heap ≠ [] →
       ∃ m, queueShift (⟨[2, 9, 5], false⟩ : QueueState Nat)
         = (⟨([2, 9, 5] : List Nat).erase m, false⟩, .ok (some m))
         ∧ m ∈ [2, 9, 5] ∧ ∀ y ∈ [2, 9, 5], y ≤ m)) ∧
    ((⟨[], false⟩ : QueueState Nat).heap = [] →
      queueShift (⟨[], false⟩ : QueueState Nat) = (⟨[], false⟩, .ok none)) ∧
    (∀ item : Nat, queuePush (⟨[2, 9, 5], false⟩ : QueueState Nat) item
      = (⟨item :: [2, 9, 5], false⟩, .ok ())) :=
  ⟨⟨rfl, (c9_priority_shift_max ⟨[2, 9, 5], false⟩ rfl).1⟩,
   (c9_priority_shift_max (⟨[], false⟩ : QueueState Nat) rfl).2.1,
   (c9_priority_shift_max ⟨[2, 9, 5], false⟩ rfl).2.2⟩

/-! Claim C5: the serialization round trip. -/

/-- C5 counterexample: corrupting the single-byte encoding of 5 into the
byte 6 (same length, one byte changed) does not yield a decode error: it
decodes successfully to the wrong value 6. Decoding is total (never a
crash), but corrupted bytes are not guaranteed to be rejected. -/
theorem c5_corrupted_decodes_counterexample :
    encodeU64 5 = [5] ∧ ([6] : Bytes).length = (encodeU64 5).length ∧
    ([6] : Bytes) ≠ encodeU64 5 ∧ decodeU64 [6] = .ok 6 := by
  refine ⟨rfl, rfl, by decide, rfl⟩

/-- C5 amended: decode is a left inverse of encode on every representable
u64, and decoding any strict prefix of an encoding (truncated bytes) yields
a decode error; decoding is a total function (no crash), but a corrupted
buffer may decode to a different valid value instead of an error. -/
theorem c5_roundtrip_truncation :
    (∀ x : Nat, x < U64MOD → decodeU64 (encodeU64 x) = .ok x) ∧
    (∀ x k : Nat, k < (encodeU64 x).length →
      decodeU64 ((encodeU64 x).take k) = .error .DecodeError) :=
  ⟨decode_encode_u64, decode_truncated_u64⟩

/-- Witness for c5_roundtrip_truncation at x = 300 (two-byte payload) and
its one-byte truncation. -/
theorem c5_roundtrip_truncation_witness :
    (300 < U64MOD ∧ decodeU64 (encodeU64 300) = .ok 300) ∧
    (2 < (encodeU64 300).length ∧
      decodeU64 ((encodeU64 300).take 2) = .error .DecodeError) :=
  ⟨⟨by decide, c5_roundtrip_truncation.1 300 (by decide)⟩,
   ⟨by decide, c5_roundtrip_truncation.2 300 2 (by decide)⟩⟩

/-! The buffered stream engine of src/lib.rs, sequentialized and
instantiated with the persistent buffer at the u64 item type. The doorbell
channel is modelled by a count of queued notifications plus a sender-closed
flag; the in-flight shift future of the pending slot resolves synchronously
when polled. -/

structure EngineState where
  buffer : SledBuffer
  rings : Nat
  senderClosed : Bool
  stopFlag : Bool
  pending : Bool
deriving DecidableEq, Repr

/-- The outcome of one poll_next call: an item (Poll Ready Some), the
terminal end of the stream (Poll Ready None), or a suspension (Poll
Pending). -/
inductive PollResult where
  | item : Nat → PollResult
  | terminated : PollResult
  | suspended : PollResult
deriving DecidableEq, Repr

/-- Mirror of the poll_next loop in the Stream impl for
ExternalBufferedStream. Each pass first consults the stop flag and, when it
is set, returns Ready None at once; otherwise a pending shift is resolved
(item: return it; empty: clear the slot and loop; error: log and return
Ready None); otherwise the doorbell receiver is polled: a queued ring
starts a new shift and loops, a closed-and-drained channel ends the stream,
and an empty open channel suspends. The fuel only bounds the recursion;
every pass that continues either clears the pending slot or consumes a
ring, so rings plus two passes suffice, as pollNext supplies. -/
def pollNextLoop : Nat → EngineState → EngineState × PollResult
  | 0, s => (s, PollResult.suspended)
  | fuel + 1, s =>
    if s.stopFlag then (s, PollResult.terminated)
    else if s.pending then
      match shiftU64 s.buffer with
      | (b2, Except.ok (some x)) =>
          ({ s with buffer := b2, pending := false }, PollResult.item x)
      | (b2, Except.ok none) =>
          pollNextLoop fuel { s with buffer := b2, pending := false }
      | (b2, Except.error _) =>
          ({ s with buffer := b2, pending := false }, PollResult.terminated)
    else if 0 < s.rings then
      pollNextLoop fuel { s with rings := s.rings - 1, pending := true }
    else if s.senderClosed then (s, PollResult.terminated)
    else (s, PollResult.suspended)

/-- One poll_next call, with fuel the loop can never exhaust. -/
def pollNext (s : EngineState) : EngineState × PollResult :=
  pollNextLoop (2 * s.rings + 2) s

/-- Mirror of the handle_source drain flow on a finite source, run to
completion before the consumer polls: push each item into the buffer and
ring the doorbell once per successful push. In the model a u64 push cannot
fail and the receiver is alive, so the flow never stops early. -/
def runProducer : List Nat → SledBuffer → Nat → SledBuffer × Nat
  | [], b, rings => (b, rings)
  | x :: rest, b, rings => runProducer rest (pushU64 b x) (rings + 1)

/-- The engine state right after the drain flow finished on the given
source against a freshly opened buffer, before any consumer poll: every
item pushed and rung, the stop flag set, the final ring sent, and the
sender dropped as the producer task returned. -/
def engineAfterProducer (source : List Nat) : EngineState :=
  { buffer := (runProducer source ⟨[], 0, 0⟩ 0).1
    rings := (runProducer source ⟨[], 0, 0⟩ 0).2 + 1
    senderClosed := true
    stopFlag := true
    pending := false }

/-- C1 fails on the code: with a one-item source fully drained by the
producer (stop flag set, doorbell rung twice, the pushed item still
buffered and decodable), the consumer's first poll hits the stop-flag check
at the top of the loop and returns the terminal Ready None without shifting
the buffer, so the buffered item is never delivered — the spec requires all
items pushed before exhaustion to be delivered before termination. -/
theorem c1_stop_flag_discards_buffered_item :
    (pollNext (engineAfterProducer [7])).2 = PollResult.terminated ∧
    storeLookup (pollNext (engineAfterProducer [7])).1.buffer.db
      (u64_to_be_bytes 0) = some (encodeU64 7) ∧
    decodeU64 (encodeU64 7) = .ok 7 ∧
    (engineAfterProducer [7]).rings = 2 ∧
    (engineAfterProducer [7]).buffer.head = 0 ∧
    (engineAfterProducer [7]).buffer.tail = 1 := by
  refine ⟨rfl, rfl, rfl, rfl, rfl, rfl⟩

end EBS
